import Mathlib

/-!
Verification of the text drawing module (src/drawing/text.rs).

The module is embedded shallowly: machine integers (u32, i32) become Nat and Int
with explicit wrapping where the source can wrap, f32 arithmetic becomes exact
rational arithmetic (the idealization stated by the spec, which phrases every
float formula over the reals), and the external collaborators (the rusttype font
shaper, the pixel buffer of the image crate, the pixelops blender and the rect
module, none of which are under src/) are modelled from the spec at their
interface boundary.
-/

/-! ## Machine integer helpers -/

/-- Modulus of the 32-bit unsigned integers. -/
def u32Mod : Nat := 4294967296

/-- Wrapping u32 addition. -/
def u32add (a b : Nat) : Nat := (a + b) % u32Mod

/-- Wrapping u32 subtraction. -/
def u32sub (a b : Nat) : Nat := (a + u32Mod - b) % u32Mod

/-- Value of an i32 reinterpreted as u32 (the Rust cast from i32 to u32). -/
def i32ToU32 (i : Int) : Nat := (i % (4294967296 : Int)).toNat

/-- Value of a u32 reinterpreted as i32 (the Rust cast from u32 to i32). -/
def u32ToI32 (n : Nat) : Int :=
  if n % u32Mod < 2147483648 then ((n % u32Mod : Nat) : Int)
  else ((n % u32Mod : Nat) : Int) - 4294967296

/-- Saturating Rust cast from f32 to u32: truncation toward zero, negative values
become 0 and values above the maximum saturate. Floats are modelled as rationals. -/
def f32ToU32 (q : ℚ) : Nat :=
  if q < 0 then 0 else min (Int.toNat ⌊q⌋) (u32Mod - 1)

/-! ## Pixels and blending (modelled from the spec at the interface boundary) -/

/-- A pixel: a list of 8-bit channel values, one per channel of the pixel type. -/
abbrev Pixel := List Nat

/-- Modelled from the spec: the clamped conversion from the float intermediate back
to a channel value (the Clamp capability of section 4.2), for 8-bit channels:
clamp to the valid range and truncate. -/
def clampChannel (v : ℚ) : Nat :=
  if v < 0 then 0 else if 255 < v then 255 else (⌊v⌋).toNat

/-- Modelled from the spec: the Blender, crate pixelops weighted_sum, which is not
under src/. Per channel it computes left * left_weight + right * right_weight
through a float intermediate and converts back with clamping (section 4.2). -/
def weighted_sum (left right : Pixel) (left_weight right_weight : ℚ) : Pixel :=
  List.zipWith
    (fun (p q : Nat) => clampChannel ((p : ℚ) * left_weight + (q : ℚ) * right_weight))
    left right

/-! ## Glyphs and fonts (modelled from the spec at the interface boundary) -/

/-- Modelled from the spec: the pixel bounding box of a positioned glyph (the
rusttype Rect over i32 of section 6). -/
structure GRect where
  minX : Int
  minY : Int
  maxX : Int
  maxY : Int
deriving DecidableEq

/-- Modelled from the spec: one positioned glyph from the external shaper
(sections 3 and 6). Field cov lists the (x, y, coverage) triples that the
rasterizer callback of the glyph visits, with local coordinates relative to the
bounding box; advance is the advance width from the horizontal metrics; ascent
and descent record the vertical metrics of the font of the glyph at the scale of
the glyph. -/
structure Glyph where
  bb : Option GRect
  cov : List (Nat × Nat × ℚ)
  advance : ℚ
  ascent : ℚ
  descent : ℚ
deriving DecidableEq

/-- Modelled from the spec: the rusttype Scale, the x and y scaling in pixels. -/
structure Scale where
  x : ℚ
  y : ℚ

/-- Modelled from the spec: the external font shaper (section 6), which for a
scale assigns to every character its positioned glyph. -/
structure Font where
  glyphAt : Scale → Char → Glyph

/-- Modelled from the spec: font.layout(text, scale, offset) of the external
shaper yields one positioned glyph per character of the text (section 4.1). The
baseline offset point(0, ascent) is absorbed into the positioned glyph data. -/
def Font.layout (font : Font) (scale : Scale) (text : List Char) : List Glyph :=
  text.map (font.glyphAt scale)

/-! ## The pixel surface -/

/-- The pixel surface: a 2-D buffer with a width, a height and pixel data. The
data function is meaningful on [0, width) times [0, height). -/
structure Image (P : Type) where
  width : Nat
  height : Nat
  data : Nat → Nat → P

/-- Write one pixel of the surface (put_pixel / draw_pixel of the surface
abstraction). -/
def Image.putPixel {P : Type} (img : Image P) (x y : Nat) (p : P) : Image P :=
  { img with data := fun u v => if u = x ∧ v = y then p else img.data u v }

/-- Duplicate a surface: ImageBuffer new of the same dimensions followed by
copy_from with equal dimensions reproduces every pixel of the source. -/
def Image.copyFrom {P : Type} (img : Image P) : Image P :=
  ⟨img.width, img.height, fun u v => img.data u v⟩

/-! ## layout_glyphs and text_size (src/drawing/text.rs lines 14-38) -/

/-- Embedding of layout_glyphs: walk the glyphs of the layout of the text; for
every glyph that has a pixel bounding box, accumulate the running maxima of
max.x and max.y of the box and feed the glyph and box to the callback f, whose
state sigma stands for the mutable environment the Rust closure captures.
Returns the pair (w, h) together with the final callback state. -/
def layout_glyphs {σ : Type} (scale : Scale) (font : Font) (text : List Char)
    (init : σ) (f : σ → Glyph → GRect → σ) : (Int × Int) × σ :=
  (Font.layout font scale text).foldl
    (fun acc g =>
      match g.bb with
      | none => acc
      | some bb => ((max acc.1.1 bb.maxX, max acc.1.2 bb.maxY), f acc.2 g bb))
    ((0, 0), init)

/-- Embedding of text_size: the (w, h) of layout_glyphs with a callback that does
nothing. -/
def text_size (scale : Scale) (font : Font) (text : List Char) : Int × Int :=
  (layout_glyphs scale font text () (fun _ _ _ => ())).1

/-! ## The per-pixel compositing step (the closure body shared verbatim by
draw_text_mut, lines 57-68, and GlyphString draw_mut, lines 200-218) -/

/-- Embedding of the per-coverage-pixel closure body: shift the local glyph
coordinates by the minimum corner of the bounding box and by the draw offset,
and when the resulting surface coordinate lies inside [0, W) times [0, H), read
the current pixel, blend it with the color weighted by the coverage, and write
the result back. Out-of-range coordinates leave the surface untouched. -/
def drawGlyphPixel (color : Pixel) (x y W H : Int) (bb : GRect)
    (img : Image Pixel) (t : Nat × Nat × ℚ) : Image Pixel :=
  if 0 ≤ (t.1 : Int) + bb.minX + x ∧ (t.1 : Int) + bb.minX + x < W ∧
     0 ≤ (t.2.1 : Int) + bb.minY + y ∧ (t.2.1 : Int) + bb.minY + y < H then
    img.putPixel ((t.1 : Int) + bb.minX + x).toNat ((t.2.1 : Int) + bb.minY + y).toNat
      (weighted_sum
        (img.data ((t.1 : Int) + bb.minX + x).toNat ((t.2.1 : Int) + bb.minY + y).toNat)
        color (1 - t.2.2) t.2.2)
  else img

/-! ## draw_text_mut and draw_text (src/drawing/text.rs lines 41-92) -/

/-- Embedding of draw_text_mut: capture the canvas dimensions as i32, then walk
layout_glyphs with the canvas as the mutable closure state, compositing every
coverage pixel of every glyph that has a bounding box. -/
def draw_text_mut (canvas : Image Pixel) (color : Pixel) (x y : Int)
    (scale : Scale) (font : Font) (text : List Char) : Image Pixel :=
  let image_width : Int := u32ToI32 canvas.width
  let image_height : Int := u32ToI32 canvas.height
  (layout_glyphs scale font text canvas
    (fun img g bb =>
      g.cov.foldl (fun im t => drawGlyphPixel color x y image_width image_height bb im t)
        img)).2

/-- Embedding of draw_text: allocate a buffer of the same dimensions, copy the
input image into it, draw in place on the copy and return it. -/
def draw_text (image : Image Pixel) (color : Pixel) (x y : Int)
    (scale : Scale) (font : Font) (text : List Char) : Image Pixel :=
  let out := image.copyFrom
  draw_text_mut out color x y scale font text

/-! ## GlyphString (src/drawing/text.rs lines 149-237) -/

/-- An arrangement of glyphs which can be drawn onto an image. -/
structure GlyphString where
  glyphs : List Glyph

/-- Embedding of GlyphString new: collect the glyphs of the layout of the text at
the scale (the baseline offset point(0, ascent) is part of the shaper model). -/
def GlyphString.new (scale : Scale) (font : Font) (text : List Char) : GlyphString :=
  ⟨Font.layout font scale text⟩

/-- Embedding of GlyphString width: 2 plus the f32 sum of the advance widths of
the glyphs, cast to u32. -/
def GlyphString.width (s : GlyphString) : Nat :=
  u32add 2 (f32ToU32 ((s.glyphs.map Glyph.advance).sum))

/-- Embedding of GlyphString height: from the first glyph, the vertical metrics
of its font at its scale give ((ascent - descent) * 1.1) cast to u32; an empty
glyph list gives 0. -/
def GlyphString.height (s : GlyphString) : Nat :=
  match s.glyphs.head? with
  | some glyph => f32ToU32 ((glyph.ascent - glyph.descent) * (11 / 10))
  | none => 0

/-- Embedding of GlyphString draw_mut: for every glyph that has a pixel bounding
box, composite every coverage pixel; the u32 offsets x and y are cast to i32 and
the image dimensions are read (as i32) at every step, as in the source closure. -/
def GlyphString.draw_mut (s : GlyphString) (image : Image Pixel) (color : Pixel)
    (x y : Nat) : Image Pixel :=
  s.glyphs.foldl
    (fun img g =>
      match g.bb with
      | none => img
      | some bb =>
          g.cov.foldl
            (fun im t =>
              drawGlyphPixel color (u32ToI32 x) (u32ToI32 y)
                (u32ToI32 im.width) (u32ToI32 im.height) bb im t)
            img)
    image

/-- Embedding of GlyphString draw: allocate a buffer of the same dimensions, copy
the input image into it, draw in place on the copy and return it. -/
def GlyphString.draw (s : GlyphString) (image : Image Pixel) (color : Pixel)
    (x y : Nat) : Image Pixel :=
  let out := image.copyFrom
  s.draw_mut out color x y

/-! ## EdgePosition, Position, IpRect and the anchor resolver
(src/drawing/text.rs lines 94-145 and 328-453) -/

/-- The relative position of a point on an edge, a percentage (an f32 in the
source, modelled as a rational). -/
structure EdgePosition where
  val : ℚ

/-- The left-most point of a horizontal edge. -/
def EdgePosition.left : EdgePosition := ⟨0⟩

/-- The top-most point of a vertical edge. -/
def EdgePosition.top : EdgePosition := ⟨0⟩

/-- The center point of a horizontal or vertical edge. -/
def EdgePosition.center : EdgePosition := ⟨50⟩

/-- The right-most point of a horizontal edge. -/
def EdgePosition.right : EdgePosition := ⟨100⟩

/-- The bottom-most point of a vertical edge. -/
def EdgePosition.bottom : EdgePosition := ⟨100⟩

/-- A position inside a rectangle. -/
inductive Position where
  | HorizontalTop (e : EdgePosition)
  | HorizontalCenter (e : EdgePosition)
  | HorizontalBottom (e : EdgePosition)
  | VerticalLeft (e : EdgePosition)
  | VerticalCenter (e : EdgePosition)
  | VerticalRight (e : EdgePosition)
  | Any (h v : EdgePosition)

/-- Modelled from the spec: crate rect Rect (not under src/): an axis-aligned
integer rectangle with left and top as i32 and width and height as u32. -/
structure IpRect where
  left : Int
  top : Int
  width : Nat
  height : Nat

/-- Modelled from the spec: the right accessor of the rectangle, satisfying the
anchor formula x = rect.right - w of section 4.4, so right = left + width. -/
def IpRect.right (r : IpRect) : Int := r.left + r.width

/-- Modelled from the spec: the bottom accessor of the rectangle, satisfying the
anchor formula y = rect.bottom - h of section 4.4, so bottom = top + height. -/
def IpRect.bottom (r : IpRect) : Int := r.top + r.height

/-- Embedding of calculate_center: the u32 difference of the rectangle length and
the content length, converted to f32, scaled by the relative position over 100,
and cast back to u32. -/
def calculate_center (rectangle_size content_size : Nat)
    (relative_position : EdgePosition) : Nat :=
  f32ToU32 (((u32sub rectangle_size content_size : Nat) : ℚ) * relative_position.val / 100)

/-- Embedding of find_text_area_coordinates: per Position variant, one axis is
pinned to an edge or centered and the other slides by calculate_center; all
arithmetic is u32 arithmetic on the accessor values cast from i32. -/
def find_text_area_coordinates (position : Position) (rectangle : IpRect)
    (width height : Nat) : Nat × Nat :=
  match position with
  | Position.HorizontalCenter edge_position =>
      (u32add (i32ToU32 rectangle.left) (calculate_center rectangle.width width edge_position),
       u32add (i32ToU32 rectangle.top) (u32sub rectangle.height height / 2))
  | Position.HorizontalBottom edge_position =>
      (u32add (i32ToU32 rectangle.left) (calculate_center rectangle.width width edge_position),
       u32sub (i32ToU32 rectangle.bottom) height)
  | Position.HorizontalTop edge_position =>
      (u32add (i32ToU32 rectangle.left) (calculate_center rectangle.width width edge_position),
       i32ToU32 rectangle.top)
  | Position.VerticalCenter edge_position =>
      (u32add (i32ToU32 rectangle.left) (u32sub rectangle.width width / 2),
       u32add (i32ToU32 rectangle.top) (calculate_center rectangle.height height edge_position))
  | Position.VerticalRight edge_position =>
      (u32sub (i32ToU32 rectangle.right) width,
       u32add (i32ToU32 rectangle.top) (calculate_center rectangle.height height edge_position))
  | Position.VerticalLeft edge_position =>
      (i32ToU32 rectangle.left,
       u32add (i32ToU32 rectangle.top) (calculate_center rectangle.height height edge_position))
  | Position.Any horizontal_edge vertical_edge =>
      (u32add (i32ToU32 rectangle.left) (calculate_center rectangle.width width horizontal_edge),
       u32add (i32ToU32 rectangle.top) (calculate_center rectangle.height height vertical_edge))

/-! ## GlyphStrings (src/drawing/text.rs lines 455-499) -/

/-- Embedding of the for loop of GlyphStrings draw_positioned_mut: draw each
(string, color) pair of the truncating zip at the running cursor, then advance
the u32 cursor x by the width of the string just drawn; y is shared. -/
def GlyphStrings.drawLoop : List (GlyphString × Pixel) → Image Pixel → Nat → Nat → Image Pixel
  | [], image, _, _ => image
  | (string, color) :: rest, image, x, y =>
      GlyphStrings.drawLoop rest (string.draw_mut image color x y) (u32add x string.width) y

/-- Embedding of GlyphStrings width: the u32 sum of the widths of the members. -/
def GlyphStrings.width (gss : List GlyphString) : Nat :=
  (gss.map GlyphString.width).foldl u32add 0

/-- Embedding of GlyphStrings height: the maximum of the heights of the members,
or 0 when there are none. -/
def GlyphStrings.height (gss : List GlyphString) : Nat :=
  ((gss.map GlyphString.height).max?).getD 0

/-- Embedding of GlyphStrings draw_positioned_mut: resolve the anchor of the
whole block from its combined width and height, then draw the members
left-to-right from the resolved origin. -/
def GlyphStrings.draw_positioned_mut (gss : List GlyphString) (image : Image Pixel)
    (colors : List Pixel) (position : Position) (rectangle : IpRect) : Image Pixel :=
  let width := GlyphStrings.width gss
  let height := GlyphStrings.height gss
  let xy := find_text_area_coordinates position rectangle width height
  GlyphStrings.drawLoop (gss.zip colors) image xy.1 xy.2

/-! ## Footprint predicates (specification helpers for the claims) -/

/-- Coverage footprint of one glyph drawn at offset (x, y): the surface
coordinate (u, v) is hit by some coverage triple of the glyph. -/
def Glyph.covers (g : Glyph) (x y : Int) (u v : Nat) : Prop :=
  match g.bb with
  | none => False
  | some bb => ∃ t ∈ g.cov,
      (t.1 : Int) + bb.minX + x = (u : Int) ∧ (t.2.1 : Int) + bb.minY + y = (v : Int)

instance (g : Glyph) (x y : Int) (u v : Nat) : Decidable (Glyph.covers g x y u v) :=
  match h : g.bb with
  | none => isFalse (by simp [Glyph.covers, h])
  | some bb => decidable_of_iff
      (∃ t ∈ g.cov,
        (t.1 : Int) + bb.minX + x = (u : Int) ∧ (t.2.1 : Int) + bb.minY + y = (v : Int))
      (by simp [Glyph.covers, h])

/-- Every coverage pixel of the glyph drawn at offset (x, y) falls outside the
surface box [0, W) times [0, H). -/
def Glyph.allOutside (g : Glyph) (x y W H : Int) : Prop :=
  match g.bb with
  | none => True
  | some bb => ∀ t ∈ g.cov,
      ¬ (0 ≤ (t.1 : Int) + bb.minX + x ∧ (t.1 : Int) + bb.minX + x < W ∧
         0 ≤ (t.2.1 : Int) + bb.minY + y ∧ (t.2.1 : Int) + bb.minY + y < H)

instance (g : Glyph) (x y W H : Int) : Decidable (Glyph.allOutside g x y W H) :=
  match h : g.bb with
  | none => isTrue (by simp [Glyph.allOutside, h])
  | some bb => decidable_of_iff
      (∀ t ∈ g.cov,
        ¬ (0 ≤ (t.1 : Int) + bb.minX + x ∧ (t.1 : Int) + bb.minX + x < W ∧
           0 ≤ (t.2.1 : Int) + bb.minY + y ∧ (t.2.1 : Int) + bb.minY + y < H))
      (by simp [Glyph.allOutside, h])

/-- Canonical form of the glyph compositing fold with the dimension bounds held
fixed; both draw_text_mut and GlyphString draw_mut reduce to it. -/
def drawGlyphsAt (color : Pixel) (x y W H : Int) (glyphs : List Glyph)
    (img : Image Pixel) : Image Pixel :=
  glyphs.foldl
    (fun acc g =>
      match g.bb with
      | none => acc
      | some bb => g.cov.foldl (fun im t => drawGlyphPixel color x y W H bb im t) acc)
    img

/-! ## Concrete sample data used by the witnesses -/

/-- Sample scale for witnesses. -/
def sampleScale : Scale := ⟨12, 12⟩

/-- Sample whitespace-like glyph: no pixel bounding box, nonzero advance. -/
def wsGlyph : Glyph := ⟨none, [], 3, 5, -2⟩

/-- Sample inked glyph: one covered pixel at the minimum corner of its box. -/
def inkGlyph : Glyph := ⟨some ⟨1, 2, 3, 4⟩, [(0, 0, 1)], 4, 5, -2⟩

/-- Sample glyph positioned far outside any small surface. -/
def farGlyph : Glyph := ⟨some ⟨100, 100, 103, 103⟩, [(0, 0, 1), (1, 1, 1/2)], 4, 5, -2⟩

/-- Sample font mapping every character to the whitespace-like glyph. -/
def spaceFont : Font := ⟨fun _ _ => wsGlyph⟩

/-- Sample font mapping every character to the inked glyph. -/
def inkFont : Font := ⟨fun _ _ => inkGlyph⟩

/-- Sample font mapping every character to the far-away glyph. -/
def farFont : Font := ⟨fun _ _ => farGlyph⟩

/-- Sample glyph whose metrics make the height formula land on a half. -/
def halfGlyph : Glyph := ⟨none, [], 0, 5, 0⟩

/-- Sample font for the height counterexample. -/
def halfFont : Font := ⟨fun _ _ => halfGlyph⟩

/-- Sample 20 by 10 surface with every pixel equal to the one-channel pixel 7. -/
def sampleImage : Image Pixel := ⟨20, 10, fun _ _ => [7]⟩

/-- Sample member run of width 10 (advance sum 8). -/
def run10 : GlyphString := ⟨[⟨none, [], 8, 5, -2⟩]⟩

/-- Sample member run of width 15 (advance sum 13). -/
def run15 : GlyphString := ⟨[⟨none, [], 13, 5, -2⟩]⟩

/-- Sample member run of width 12 (advance sum 10). -/
def run12 : GlyphString := ⟨[⟨none, [], 10, 5, -2⟩]⟩

/-! ## Arithmetic lemmas about the machine integer helpers -/

/-- Non-wrapping u32 addition agrees with Nat addition. -/
theorem u32add_eq (a b : Nat) (h : a + b < u32Mod) : u32add a b = a + b :=
  Nat.mod_eq_of_lt h

/-- Non-wrapping u32 subtraction agrees with Nat subtraction. -/
theorem u32sub_eq (a b : Nat) (hb : b ≤ a) (ha : a < u32Mod) : u32sub a b = a - b := by
  unfold u32sub
  have h1 : a + u32Mod - b = (a - b) + u32Mod := by omega
  rw [h1, Nat.add_mod_right, Nat.mod_eq_of_lt (by omega)]

/-- The i32-to-u32 cast of an in-range value is its Nat value. -/
theorem i32ToU32_eq (i : Int) (h0 : 0 ≤ i) (h1 : i < 4294967296) : i32ToU32 i = i.toNat := by
  unfold i32ToU32
  rw [Int.emod_eq_of_lt h0 h1]

/-- The u32-to-i32 cast never exceeds the original value. -/
theorem u32ToI32_le (n : Nat) : u32ToI32 n ≤ (n : Int) := by
  unfold u32ToI32
  split
  · exact_mod_cast Nat.mod_le n u32Mod
  · have : ((n % u32Mod : Nat) : Int) ≤ (n : Int) := by exact_mod_cast Nat.mod_le n u32Mod
    omega

/-- The u32-to-i32 cast is the identity below 2^31. -/
theorem u32ToI32_eq (n : Nat) (h : n < 2147483648) : u32ToI32 n = (n : Int) := by
  unfold u32ToI32
  have hm : n % u32Mod = n := Nat.mod_eq_of_lt (by unfold u32Mod; omega)
  rw [hm, if_pos h]

/-- The f32-to-u32 cast of a nonnegative in-range value is the floor. -/
theorem f32ToU32_eq (q : ℚ) (h0 : 0 ≤ q) (h1 : ⌊q⌋ < 4294967296) :
    f32ToU32 q = (⌊q⌋).toNat := by
  unfold f32ToU32
  rw [if_neg (not_lt.2 h0)]
  have : Int.toNat ⌊q⌋ ≤ u32Mod - 1 := by unfold u32Mod; omega
  exact Nat.min_eq_left this

/-- Folding wrapping u32 addition computes the sum modulo 2^32. -/
theorem foldl_u32add (l : List Nat) : ∀ a : Nat, a < u32Mod →
    l.foldl u32add a = (a + l.sum) % u32Mod := by
  induction l with
  | nil => intro a ha; simpa using (Nat.mod_eq_of_lt ha).symm
  | cons x t ih =>
      intro a ha
      have hstep : u32add a x < u32Mod := Nat.mod_lt _ (by unfold u32Mod; omega)
      rw [List.foldl_cons, ih (u32add a x) hstep]
      unfold u32add
      rw [Nat.mod_add_mod]
      simp [List.sum_cons, Nat.add_assoc]

/-! ## Lemmas about the surface and the compositing folds -/

/-- Writing a pixel leaves every other coordinate unchanged. -/
theorem Image.putPixel_data_of_ne {P : Type} (img : Image P) (a b u v : Nat) (p : P)
    (h : ¬ (u = a ∧ v = b)) : (img.putPixel a b p).data u v = img.data u v := by
  unfold Image.putPixel
  simp only
  rw [if_neg h]

/-- The per-pixel compositing step does not change the dimensions. -/
theorem drawGlyphPixel_width (color : Pixel) (x y W H : Int) (bb : GRect)
    (img : Image Pixel) (t : Nat × Nat × ℚ) :
    (drawGlyphPixel color x y W H bb img t).width = img.width ∧
    (drawGlyphPixel color x y W H bb img t).height = img.height := by
  unfold drawGlyphPixel
  split <;> exact ⟨rfl, rfl⟩

/-- The per-pixel compositing step leaves every surface coordinate the triple
does not hit unchanged. -/
theorem drawGlyphPixel_data_of_not_hit (color : Pixel) (x y W H : Int) (bb : GRect)
    (img : Image Pixel) (t : Nat × Nat × ℚ) (u v : Nat)
    (h : ¬ ((t.1 : Int) + bb.minX + x = (u : Int) ∧ (t.2.1 : Int) + bb.minY + y = (v : Int))) :
    (drawGlyphPixel color x y W H bb img t).data u v = img.data u v := by
  unfold drawGlyphPixel
  split
  case isTrue hc =>
    apply Image.putPixel_data_of_ne
    rintro ⟨hu, hv⟩
    apply h
    constructor
    · rw [hu] at *
      exact (Int.toNat_of_nonneg hc.1).symm ▸ rfl
    · rw [hv] at *
      exact (Int.toNat_of_nonneg hc.2.2.1).symm ▸ rfl
  case isFalse => rfl

/-- The per-pixel compositing step leaves every coordinate at or beyond the
bounds unchanged: out-of-range writes never occur. -/
theorem drawGlyphPixel_data_of_oob (color : Pixel) (x y W H : Int) (bb : GRect)
    (img : Image Pixel) (t : Nat × Nat × ℚ) (u v : Nat)
    (h : W ≤ (u : Int) ∨ H ≤ (v : Int)) :
    (drawGlyphPixel color x y W H bb img t).data u v = img.data u v := by
  unfold drawGlyphPixel
  split
  case isTrue hc =>
    apply Image.putPixel_data_of_ne
    rintro ⟨hu, hv⟩
    rcases h with h | h
    · have hx : ((t.1 : Int) + bb.minX + x).toNat = u := hu.symm
      have : (u : Int) < W := by
        rw [← hx]
        rw [Int.toNat_of_nonneg hc.1]
        exact hc.2.1
      omega
    · have hy : ((t.2.1 : Int) + bb.minY + y).toNat = v := hv.symm
      have : (v : Int) < H := by
        rw [← hy]
        rw [Int.toNat_of_nonneg hc.2.2.1]
        exact hc.2.2.2
      omega
  case isFalse => rfl

/-- The coverage fold does not change the dimensions. -/
theorem covFold_dims (color : Pixel) (x y W H : Int) (bb : GRect)
    (cov : List (Nat × Nat × ℚ)) : ∀ img : Image Pixel,
    ((cov.foldl (fun im t => drawGlyphPixel color x y W H bb im t) img).width = img.width ∧
     (cov.foldl (fun im t => drawGlyphPixel color x y W H bb im t) img).height = img.height) := by
  induction cov with
  | nil => intro img; exact ⟨rfl, rfl⟩
  | cons t rest ih =>
      intro img
      rw [List.foldl_cons]
      rcases ih (drawGlyphPixel color x y W H bb img t) with ⟨hw, hh⟩
      rcases drawGlyphPixel_width color x y W H bb img t with ⟨hw2, hh2⟩
      exact ⟨hw.trans hw2, hh.trans hh2⟩

/-- The coverage fold leaves every coordinate no triple hits unchanged. -/
theorem covFold_data_of_not_hit (color : Pixel) (x y W H : Int) (bb : GRect)
    (cov : List (Nat × Nat × ℚ)) (u v : Nat)
    (h : ∀ t ∈ cov,
      ¬ ((t.1 : Int) + bb.minX + x = (u : Int) ∧ (t.2.1 : Int) + bb.minY + y = (v : Int))) :
    ∀ img : Image Pixel,
    (cov.foldl (fun im t => drawGlyphPixel color x y W H bb im t) img).data u v = img.data u v := by
  induction cov with
  | nil => intro img; rfl
  | cons t rest ih =>
      intro img
      rw [List.foldl_cons]
      rw [ih (fun s hs => h s (List.mem_cons_of_mem t hs)) _]
      exact drawGlyphPixel_data_of_not_hit color x y W H bb img t u v (h t (List.mem_cons_self _ _))

/-- The coverage fold leaves every coordinate at or beyond the bounds unchanged. -/
theorem covFold_data_of_oob (color : Pixel) (x y W H : Int) (bb : GRect)
    (cov : List (Nat × Nat × ℚ)) (u v : Nat) (h : W ≤ (u : Int) ∨ H ≤ (v : Int)) :
    ∀ img : Image Pixel,
    (cov.foldl (fun im t => drawGlyphPixel color x y W H bb im t) img).data u v = img.data u v := by
  induction cov with
  | nil => intro img; rfl
  | cons t rest ih =>
      intro img
      rw [List.foldl_cons, ih _]
      exact drawGlyphPixel_data_of_oob color x y W H bb img t u v h

/-- The glyph fold does not change the dimensions. -/
theorem drawGlyphsAt_dims (color : Pixel) (x y W H : Int) (glyphs : List Glyph) :
    ∀ img : Image Pixel,
    ((drawGlyphsAt color x y W H glyphs img).width = img.width ∧
     (drawGlyphsAt color x y W H glyphs img).height = img.height) := by
  induction glyphs with
  | nil => intro img; exact ⟨rfl, rfl⟩
  | cons g rest ih =>
      intro img
      unfold drawGlyphsAt at *
      rw [List.foldl_cons]
      cases hbb : g.bb with
      | none => simpa [hbb] using ih img
      | some bb =>
          simp only [hbb]
          rcases ih (g.cov.foldl (fun im t => drawGlyphPixel color x y W H bb im t) img) with ⟨hw, hh⟩
          rcases covFold_dims color x y W H bb g.cov img with ⟨hw2, hh2⟩
          exact ⟨hw.trans hw2, hh.trans hh2⟩

/-- The glyph fold leaves every coordinate outside the footprint of every glyph
unchanged. -/
theorem drawGlyphsAt_data_of_not_covers (color : Pixel) (x y W H : Int)
    (glyphs : List Glyph) (u v : Nat) (h : ∀ g ∈ glyphs, ¬ Glyph.covers g x y u v) :
    ∀ img : Image Pixel,
    (drawGlyphsAt color x y W H glyphs img).data u v = img.data u v := by
  induction glyphs with
  | nil => intro img; rfl
  | cons g rest ih =>
      intro img
      unfold drawGlyphsAt at *
      rw [List.foldl_cons]
      have hrest : ∀ g2 ∈ rest, ¬ Glyph.covers g2 x y u v :=
        fun g2 hg2 => h g2 (List.mem_cons_of_mem g hg2)
      have hg : ¬ Glyph.covers g x y u v := h g (List.mem_cons_self _ _)
      cases hbb : g.bb with
      | none => simpa [hbb] using ih hrest img
      | some bb =>
          simp only [hbb]
          rw [ih hrest _]
          apply covFold_data_of_not_hit
          intro t ht hhit
          apply hg
          unfold Glyph.covers
          rw [hbb]
          exact ⟨t, ht, hhit⟩

/-- The glyph fold leaves every coordinate at or beyond the bounds unchanged. -/
theorem drawGlyphsAt_data_of_oob (color : Pixel) (x y W H : Int)
    (glyphs : List Glyph) (u v : Nat) (h : W ≤ (u : Int) ∨ H ≤ (v : Int)) :
    ∀ img : Image Pixel,
    (drawGlyphsAt color x y W H glyphs img).data u v = img.data u v := by
  induction glyphs with
  | nil => intro img; rfl
  | cons g rest ih =>
      intro img
      unfold drawGlyphsAt at *
      rw [List.foldl_cons]
      cases hbb : g.bb with
      | none => simpa [hbb] using ih img
      | some bb =>
          simp only [hbb]
          rw [ih _]
          exact covFold_data_of_oob color x y W H bb g.cov u v h img

/-- A glyph all of whose coverage pixels fall outside the bounds composites to
the unchanged surface. -/
theorem covFold_of_allOutside (color : Pixel) (x y W H : Int) (bb : GRect)
    (cov : List (Nat × Nat × ℚ))
    (h : ∀ t ∈ cov,
      ¬ (0 ≤ (t.1 : Int) + bb.minX + x ∧ (t.1 : Int) + bb.minX + x < W ∧
         0 ≤ (t.2.1 : Int) + bb.minY + y ∧ (t.2.1 : Int) + bb.minY + y < H)) :
    ∀ img : Image Pixel,
    cov.foldl (fun im t => drawGlyphPixel color x y W H bb im t) img = img := by
  induction cov with
  | nil => intro img; rfl
  | cons t rest ih =>
      intro img
      rw [List.foldl_cons]
      have hstep : drawGlyphPixel color x y W H bb img t = img := by
        unfold drawGlyphPixel
        rw [if_neg (h t (List.mem_cons_self _ _))]
      rw [hstep]
      exact ih (fun s hs => h s (List.mem_cons_of_mem t hs)) img

/-- A glyph list all of whose glyphs fall entirely outside the bounds composites
to the unchanged surface: zero pixels modified. -/
theorem drawGlyphsAt_of_allOutside (color : Pixel) (x y W H : Int)
    (glyphs : List Glyph) (h : ∀ g ∈ glyphs, Glyph.allOutside g x y W H) :
    ∀ img : Image Pixel, drawGlyphsAt color x y W H glyphs img = img := by
  induction glyphs with
  | nil => intro img; rfl
  | cons g rest ih =>
      intro img
      unfold drawGlyphsAt at *
      rw [List.foldl_cons]
      have hrest := fun g2 hg2 => h g2 (List.mem_cons_of_mem g hg2)
      have hg := h g (List.mem_cons_self _ _)
      cases hbb : g.bb with
      | none => simpa [hbb] using ih hrest img
      | some bb =>
          simp only [hbb]
          unfold Glyph.allOutside at hg
          rw [hbb] at hg
          rw [covFold_of_allOutside color x y W H bb g.cov hg img]
          exact ih hrest img

/-! ## Reductions of the two drawing functions to the canonical glyph fold -/

/-- The callback-state component of layout_glyphs is the plain fold of the
callback over the glyphs that have a bounding box. -/
theorem layout_glyphs_snd {σ : Type} (scale : Scale) (font : Font) (text : List Char)
    (init : σ) (f : σ → Glyph → GRect → σ) :
    (layout_glyphs scale font text init f).2 =
    (Font.layout font scale text).foldl
      (fun s g => match g.bb with
        | none => s
        | some bb => f s g bb) init := by
  unfold layout_glyphs
  suffices h : ∀ (l : List Glyph) (p : Int × Int) (s : σ),
      (l.foldl (fun acc g => match g.bb with
        | none => acc
        | some bb => ((max acc.1.1 bb.maxX, max acc.1.2 bb.maxY), f acc.2 g bb)) (p, s)).2
      = l.foldl (fun s g => match g.bb with | none => s | some bb => f s g bb) s by
    exact h (Font.layout font scale text) (0, 0) init
  intro l
  induction l with
  | nil => intro p s; rfl
  | cons g t ih =>
      intro p s
      cases hbb : g.bb with
      | none => simp only [List.foldl_cons, hbb]; exact ih p s
      | some bb => simp only [List.foldl_cons, hbb]; exact ih _ _

/-- The size component of layout_glyphs stays at its start value when no glyph
has a pixel bounding box. -/
theorem layout_glyphs_fst_of_nobb {σ : Type} (scale : Scale) (font : Font)
    (text : List Char) (init : σ) (f : σ → Glyph → GRect → σ)
    (h : ∀ g ∈ Font.layout font scale text, g.bb = none) :
    (layout_glyphs scale font text init f).1 = (0, 0) := by
  unfold layout_glyphs
  suffices hs : ∀ (l : List Glyph), (∀ g ∈ l, g.bb = none) → ∀ (p : Int × Int) (s : σ),
      (l.foldl (fun acc g => match g.bb with
        | none => acc
        | some bb => ((max acc.1.1 bb.maxX, max acc.1.2 bb.maxY), f acc.2 g bb)) (p, s)).1
      = p by
    exact hs (Font.layout font scale text) h (0, 0) init
  intro l
  induction l with
  | nil => intro _ p s; rfl
  | cons g t ih =>
      intro hl p s
      have hbb := hl g (List.mem_cons_self _ _)
      simp only [List.foldl_cons, hbb]
      exact ih (fun g2 hg2 => hl g2 (List.mem_cons_of_mem g hg2)) p s

/-- Embedding of draw_text_mut as the canonical glyph fold over the layout, with
the bounds captured from the canvas. -/
theorem draw_text_mut_eq (canvas : Image Pixel) (color : Pixel) (x y : Int)
    (scale : Scale) (font : Font) (text : List Char) :
    draw_text_mut canvas color x y scale font text =
    drawGlyphsAt color x y (u32ToI32 canvas.width) (u32ToI32 canvas.height)
      (Font.layout font scale text) canvas := by
  unfold draw_text_mut drawGlyphsAt
  exact layout_glyphs_snd scale font text canvas _

/-- Unfolding equation of the canonical glyph fold on an empty glyph list. -/
theorem drawGlyphsAt_nil (color : Pixel) (x y W H : Int) (img : Image Pixel) :
    drawGlyphsAt color x y W H [] img = img := rfl

/-- Unfolding equation of the canonical glyph fold on a glyph list head. -/
theorem drawGlyphsAt_cons (color : Pixel) (x y W H : Int) (g : Glyph)
    (rest : List Glyph) (img : Image Pixel) :
    drawGlyphsAt color x y W H (g :: rest) img =
    drawGlyphsAt color x y W H rest
      (match g.bb with
       | none => img
       | some bb => g.cov.foldl (fun im t => drawGlyphPixel color x y W H bb im t) img) := by
  unfold drawGlyphsAt
  rw [List.foldl_cons]

/-- The coverage fold that re-reads the image dimensions at every step equals
the one with the dimensions captured up front, since compositing preserves them. -/
theorem covFold_dyn_eq (color : Pixel) (X Y : Int) (bb : GRect) :
    ∀ (cov : List (Nat × Nat × ℚ)) (W H : Nat) (img : Image Pixel),
    img.width = W → img.height = H →
    cov.foldl (fun im t =>
        drawGlyphPixel color X Y (u32ToI32 im.width) (u32ToI32 im.height) bb im t) img
    = cov.foldl (fun im t =>
        drawGlyphPixel color X Y (u32ToI32 W) (u32ToI32 H) bb im t) img := by
  intro cov
  induction cov with
  | nil => intro W H img _ _; rw [List.foldl_nil, List.foldl_nil]
  | cons t rest ih =>
      intro W H img hW hH
      rw [List.foldl_cons, List.foldl_cons]
      show rest.foldl _ (drawGlyphPixel color X Y (u32ToI32 img.width) (u32ToI32 img.height) bb img t) = _
      rw [hW, hH]
      rcases drawGlyphPixel_width color X Y (u32ToI32 W) (u32ToI32 H) bb img t with ⟨hw2, hh2⟩
      exact ih W H _ (hw2.trans hW) (hh2.trans hH)

/-- The glyph fold that re-reads the image dimensions equals the canonical
glyph fold with the dimensions of the start image. -/
theorem glyphFold_dyn_eq (color : Pixel) (X Y : Int) :
    ∀ (l : List Glyph) (W H : Nat) (img : Image Pixel),
    img.width = W → img.height = H →
    l.foldl (fun acc g => match g.bb with
      | none => acc
      | some bb => g.cov.foldl (fun im t =>
          drawGlyphPixel color X Y (u32ToI32 im.width) (u32ToI32 im.height) bb im t) acc) img
    = drawGlyphsAt color X Y (u32ToI32 W) (u32ToI32 H) l img := by
  intro l
  induction l with
  | nil =>
      intro W H img _ _
      rw [List.foldl_nil, drawGlyphsAt_nil]
  | cons g rest ih =>
      intro W H img hW hH
      rw [List.foldl_cons, drawGlyphsAt_cons]
      cases hbb : g.bb with
      | none =>
          simp only [hbb]
          exact ih W H img hW hH
      | some bb =>
          simp only [hbb]
          rw [covFold_dyn_eq color X Y bb g.cov W H img hW hH]
          rcases covFold_dims color X Y (u32ToI32 W) (u32ToI32 H) bb g.cov img with ⟨hw2, hh2⟩
          exact ih W H _ (hw2.trans hW) (hh2.trans hH)

/-- Embedding of GlyphString draw_mut as the canonical glyph fold over the
stored glyphs, with the bounds of the input image. -/
theorem GlyphString.draw_mut_eq (s : GlyphString) (image : Image Pixel)
    (color : Pixel) (x y : Nat) :
    s.draw_mut image color x y =
    drawGlyphsAt color (u32ToI32 x) (u32ToI32 y)
      (u32ToI32 image.width) (u32ToI32 image.height) s.glyphs image := by
  unfold GlyphString.draw_mut
  exact glyphFold_dyn_eq color (u32ToI32 x) (u32ToI32 y) s.glyphs
    image.width image.height image rfl rfl

/-! ## Characterization of the slide computation -/

/-- When the content fits in the rectangle and the edge value is a percentage,
calculate_center is the floor of (rect_len - content_len) * edge / 100, and it
never exceeds the leftover space. -/
theorem calculate_center_eq (r c : Nat) (e : ℚ) (hc : c ≤ r) (hr : r < u32Mod)
    (he0 : 0 ≤ e) (he1 : e ≤ 100) :
    ((calculate_center r c ⟨e⟩ : Nat) : Int) = ⌊((r : ℚ) - (c : ℚ)) * e / 100⌋ ∧
    calculate_center r c ⟨e⟩ ≤ r - c := by
  unfold calculate_center
  rw [u32sub_eq r c hc hr]
  have hcast : ((r - c : Nat) : ℚ) = (r : ℚ) - (c : ℚ) := by
    push_cast [hc]
    ring
  have hq0 : 0 ≤ ((r - c : Nat) : ℚ) * e / 100 :=
    div_nonneg (mul_nonneg (by positivity) he0) (by norm_num)
  have hqle : ((r - c : Nat) : ℚ) * e / 100 ≤ ((r - c : Nat) : ℚ) := by
    rw [div_le_iff₀ (by norm_num : (0 : ℚ) < 100)]
    exact mul_le_mul_of_nonneg_left he1 (by positivity)
  have hfle : ⌊((r - c : Nat) : ℚ) * e / 100⌋ ≤ ((r - c : Nat) : Int) := by
    have h2 := Int.floor_le_floor hqle
    rwa [Int.floor_natCast] at h2
  have hrc : ((r - c : Nat) : Int) < 4294967296 := by
    have : r - c ≤ r := Nat.sub_le r c
    have hr2 : r < 4294967296 := hr
    omega
  have hfl : ⌊((r - c : Nat) : ℚ) * e / 100⌋ < 4294967296 := lt_of_le_of_lt hfle hrc
  have h0f : 0 ≤ ⌊((r - c : Nat) : ℚ) * e / 100⌋ := Int.floor_nonneg.2 hq0
  rw [f32ToU32_eq _ hq0 hfl]
  constructor
  · rw [Int.toNat_of_nonneg h0f, hcast]
  · omega

/-! ## Maximum lemmas for the member heights -/

/-- A nonempty list has an optional maximum. -/
theorem max_isSome_of_ne_nil (l : List Nat) (h : l ≠ []) : ∃ m, l.max? = some m := by
  cases l with
  | nil => exact absurd rfl h
  | cons x t => exact ⟨t.foldl max x, rfl⟩

/-- Every member of a Nat list is at most its optional maximum. -/
theorem le_of_max_eq_some (l : List Nat) (m : Nat) (hm : l.max? = some m) :
    ∀ b ∈ l, b ≤ m :=
  (List.max?_le_iff (fun _ _ _ => max_le_iff) hm).1 (le_refl m)

/-- The optional maximum of a Nat list is one of its members. -/
theorem mem_of_max_eq_some (l : List Nat) (m : Nat) (hm : l.max? = some m) : m ∈ l :=
  List.max?_mem (fun a b => max_choice a b) hm

/-! ## Claim theorems -/

/-- C2: for the rectangle with left 0, top 0, width 100, height 50 and content
of width 20 and height 10, the anchor resolver returns (40, 20) for
HorizontalCenter(center), (80, 40) for VerticalRight(bottom) and (0, 0) for
Any(left, top). -/
theorem c2_anchor_examples :
    find_text_area_coordinates (Position.HorizontalCenter EdgePosition.center)
      ⟨0, 0, 100, 50⟩ 20 10 = (40, 20) ∧
    find_text_area_coordinates (Position.VerticalRight EdgePosition.bottom)
      ⟨0, 0, 100, 50⟩ 20 10 = (80, 40) ∧
    find_text_area_coordinates (Position.Any EdgePosition.left EdgePosition.top)
      ⟨0, 0, 100, 50⟩ 20 10 = (0, 0) := by
  refine ⟨?_, ?_, ?_⟩
  · norm_num [find_text_area_coordinates, EdgePosition.center, calculate_center,
      f32ToU32, u32add, u32sub, i32ToU32, u32Mod] <;> decide
  · norm_num [find_text_area_coordinates, EdgePosition.bottom, IpRect.right,
      calculate_center, f32ToU32, u32add, u32sub, i32ToU32, u32Mod] <;> decide
  · norm_num [find_text_area_coordinates, EdgePosition.left, EdgePosition.top,
      calculate_center, f32ToU32, u32add, u32sub, i32ToU32, u32Mod] <;> decide

/-- C3: for every rectangle, content size fitting inside it and edge value e in
[0, 100] (with the rectangle placed at nonnegative coordinates and within the
u32 range), the sliding offset equals floor((rect_len - content_len) * e / 100)
on both axes, and the anchored axes follow the per-variant formulas: the
HorizontalBottom anchor yields x = rect.left + slide and y = rect.bottom - h,
and the VerticalRight anchor yields x = rect.right - w and
y = rect.top + slide. -/
theorem c3_slide_formula (rect : IpRect) (w h : Nat) (e : ℚ)
    (hleft : 0 ≤ rect.left) (htop : 0 ≤ rect.top)
    (hwbound : rect.left + (rect.width : Int) < 4294967296)
    (hhbound : rect.top + (rect.height : Int) < 4294967296)
    (hw : w ≤ rect.width) (hh : h ≤ rect.height)
    (he0 : 0 ≤ e) (he1 : e ≤ 100) :
    ((calculate_center rect.width w ⟨e⟩ : Nat) : Int) =
        ⌊((rect.width : ℚ) - (w : ℚ)) * e / 100⌋ ∧
    ((calculate_center rect.height h ⟨e⟩ : Nat) : Int) =
        ⌊((rect.height : ℚ) - (h : ℚ)) * e / 100⌋ ∧
    (((find_text_area_coordinates (Position.HorizontalBottom ⟨e⟩) rect w h).1 : Nat) : Int) =
        rect.left + (calculate_center rect.width w ⟨e⟩ : Nat) ∧
    (((find_text_area_coordinates (Position.HorizontalBottom ⟨e⟩) rect w h).2 : Nat) : Int) =
        rect.bottom - h ∧
    (((find_text_area_coordinates (Position.VerticalRight ⟨e⟩) rect w h).1 : Nat) : Int) =
        rect.right - w ∧
    (((find_text_area_coordinates (Position.VerticalRight ⟨e⟩) rect w h).2 : Nat) : Int) =
        rect.top + (calculate_center rect.height h ⟨e⟩ : Nat) := by
  have hModEq : u32Mod = 4294967296 := rfl
  have hWlt : rect.width < u32Mod := by omega
  have hHlt : rect.height < u32Mod := by omega
  obtain ⟨hcw, hcwle⟩ := calculate_center_eq rect.width w e hw hWlt he0 he1
  obtain ⟨hch, hchle⟩ := calculate_center_eq rect.height h e hh hHlt he0 he1
  refine ⟨hcw, hch, ?_, ?_, ?_, ?_⟩
  · simp only [find_text_area_coordinates]
    rw [i32ToU32_eq rect.left hleft (by omega)]
    rw [u32add_eq _ _ (by omega)]
    push_cast
    omega
  · simp only [find_text_area_coordinates, IpRect.bottom]
    rw [i32ToU32_eq _ (by omega) (by omega)]
    rw [u32sub_eq _ _ (by omega) (by omega)]
    omega
  · simp only [find_text_area_coordinates, IpRect.right]
    rw [i32ToU32_eq _ (by omega) (by omega)]
    rw [u32sub_eq _ _ (by omega) (by omega)]
    omega
  · simp only [find_text_area_coordinates]
    rw [i32ToU32_eq rect.top htop (by omega)]
    rw [u32add_eq _ _ (by omega)]
    push_cast
    omega

/-- Witness for C3 at the rectangle (0, 0, 100, 50), content 20 by 10 and edge
value 50. -/
theorem c3_slide_formula_witness :
    ((calculate_center 100 20 ⟨50⟩ : Nat) : Int) = ⌊((100 : ℚ) - 20) * 50 / 100⌋ ∧
    ((calculate_center 50 10 ⟨50⟩ : Nat) : Int) = ⌊((50 : ℚ) - 10) * 50 / 100⌋ ∧
    (((find_text_area_coordinates (Position.HorizontalBottom ⟨50⟩) ⟨0, 0, 100, 50⟩ 20 10).1 : Nat) : Int) =
        0 + (calculate_center 100 20 ⟨50⟩ : Nat) ∧
    (((find_text_area_coordinates (Position.HorizontalBottom ⟨50⟩) ⟨0, 0, 100, 50⟩ 20 10).2 : Nat) : Int) =
        IpRect.bottom ⟨0, 0, 100, 50⟩ - 10 ∧
    (((find_text_area_coordinates (Position.VerticalRight ⟨50⟩) ⟨0, 0, 100, 50⟩ 20 10).1 : Nat) : Int) =
        IpRect.right ⟨0, 0, 100, 50⟩ - 20 ∧
    (((find_text_area_coordinates (Position.VerticalRight ⟨50⟩) ⟨0, 0, 100, 50⟩ 20 10).2 : Nat) : Int) =
        0 + (calculate_center 50 10 ⟨50⟩ : Nat) :=
  c3_slide_formula ⟨0, 0, 100, 50⟩ 20 10 50 (by norm_num) (by norm_num) (by norm_num)
    (by norm_num) (by norm_num) (by norm_num) (by norm_num) (by norm_num)

/-- Converting a valid 8-bit channel value through the float intermediate and
clamping back is the identity. -/
theorem clampChannel_natCast (a : Nat) (ha : a ≤ 255) : clampChannel (a : ℚ) = a := by
  unfold clampChannel
  rw [if_neg (not_lt.2 (by positivity)), if_neg]
  · rw [Int.floor_natCast]
    exact Int.toNat_natCast a
  · exact not_lt.2 (by exact_mod_cast ha)

/-- Blending with coverage 0 returns the existing pixel unchanged. -/
theorem weighted_sum_coverage_zero (p c : Pixel) (hlen : p.length = c.length)
    (hp : ∀ a ∈ p, a ≤ 255) : weighted_sum p c (1 - 0) 0 = p := by
  induction p generalizing c with
  | nil => rfl
  | cons a p2 ih =>
      cases c with
      | nil => exact absurd hlen (by simp)
      | cons b c2 =>
          unfold weighted_sum at *
          rw [List.zipWith_cons_cons]
          have h1 : (a : ℚ) * (1 - 0) + (b : ℚ) * 0 = (a : ℚ) := by ring
          rw [h1, clampChannel_natCast a (hp a (List.mem_cons_self _ _))]
          rw [ih c2 (by simpa using hlen) (fun s hs => hp s (List.mem_cons_of_mem a hs))]

/-- Blending with coverage 1 returns the overlay color. -/
theorem weighted_sum_coverage_one (p c : Pixel) (hlen : p.length = c.length)
    (hc : ∀ a ∈ c, a ≤ 255) : weighted_sum p c (1 - 1) 1 = c := by
  induction p generalizing c with
  | nil =>
      cases c with
      | nil => rfl
      | cons b c2 => exact absurd hlen (by simp)
  | cons a p2 ih =>
      cases c with
      | nil => exact absurd hlen (by simp)
      | cons b c2 =>
          unfold weighted_sum at *
          rw [List.zipWith_cons_cons]
          have h1 : (a : ℚ) * (1 - 1) + (b : ℚ) * 1 = (b : ℚ) := by ring
          rw [h1, clampChannel_natCast b (hc b (List.mem_cons_self _ _))]
          rw [ih c2 (by simpa using hlen) (fun s hs => hc s (List.mem_cons_of_mem b hs))]

/-- C7: for every pair of pixels with matching channel counts and valid 8-bit
channels, the blender is the identity at the coverage extremes: with coverage
gv = 0 the call weighted_sum(p, c, 1 - gv, gv) yields p, and with gv = 1 it
yields c. -/
theorem c7_blend_extremes (p c : Pixel) (hlen : p.length = c.length)
    (hp : ∀ a ∈ p, a ≤ 255) (hc : ∀ a ∈ c, a ≤ 255) :
    weighted_sum p c (1 - 0) 0 = p ∧ weighted_sum p c (1 - 1) 1 = c :=
  ⟨weighted_sum_coverage_zero p c hlen hp, weighted_sum_coverage_one p c hlen hc⟩

/-- Witness for C7 at the pixels [10, 20] and [30, 40]. -/
theorem c7_blend_extremes_witness :
    weighted_sum [10, 20] [30, 40] (1 - 0) 0 = [10, 20] ∧
    weighted_sum [10, 20] [30, 40] (1 - 1) 1 = [30, 40] :=
  c7_blend_extremes [10, 20] [30, 40] (by decide) (by decide) (by decide)

/-- C4 counterexample: a GlyphString built from the empty string reports width
2 (the fixed padding), not width 0. -/
theorem c4_empty_width_counterexample :
    (GlyphString.new sampleScale spaceFont []).width ≠ 0 := by
  norm_num [GlyphString.new, GlyphString.width, Font.layout, f32ToU32, u32add, u32Mod] <;>
    decide

/-- C4 (amended): for empty text the width query returns the fixed padding 2,
the height query returns 0, and drawing empty text (with either in-place
operation) modifies no pixels. -/
theorem c4_empty_text (scale : Scale) (font : Font) (img : Image Pixel)
    (color c2 : Pixel) (x y : Int) (x2 y2 : Nat) :
    (GlyphString.new scale font []).width = 2 ∧
    (GlyphString.new scale font []).height = 0 ∧
    (GlyphString.new scale font []).draw_mut img c2 x2 y2 = img ∧
    draw_text_mut img color x y scale font [] = img := by
  refine ⟨?_, rfl, rfl, rfl⟩
  norm_num [GlyphString.new, GlyphString.width, Font.layout, f32ToU32, u32add, u32Mod] <;>
    decide

/-- C9 counterexample: for a first glyph with ascent 5 and descent 0 the height
query returns the truncation 5 of 5.5, not the rounding 6 claimed by
round((ascent - descent) * 1.1). -/
theorem c9_height_counterexample :
    (GlyphString.new sampleScale halfFont ['a']).height ≠
      (round ((halfGlyph.ascent - halfGlyph.descent) * (11 / 10))).toNat := by
  norm_num [GlyphString.new, GlyphString.height, Font.layout, halfFont, halfGlyph,
    f32ToU32, u32Mod, round_eq] <;> decide

/-- C9 (amended): for every nonempty GlyphString the height query equals the
truncation toward zero (not the rounding) of (ascent - descent) * 1.1 computed
from the vertical metrics of the first glyph, and the height of an empty
GlyphString is 0. -/
theorem c9_height_formula (s : GlyphString) :
    (s.glyphs = [] → s.height = 0) ∧
    (∀ (g : Glyph) (rest : List Glyph), s.glyphs = g :: rest →
      s.height = f32ToU32 ((g.ascent - g.descent) * (11 / 10))) := by
  constructor
  · intro h
    unfold GlyphString.height
    rw [h]
    rfl
  · intro g rest h
    unfold GlyphString.height
    rw [h]
    rfl

/-- Witness for C9 at an empty and a one-glyph GlyphString. -/
theorem c9_height_formula_witness :
    GlyphString.height ⟨[]⟩ = 0 ∧
    GlyphString.height ⟨[halfGlyph]⟩ =
      f32ToU32 ((halfGlyph.ascent - halfGlyph.descent) * (11 / 10)) :=
  ⟨(c9_height_formula ⟨[]⟩).1 rfl, (c9_height_formula ⟨[halfGlyph]⟩).2 halfGlyph [] rfl⟩

/-- C10: whenever no glyph of the layout has a pixel bounding box (whitespace
only text, or the empty string), text_size returns exactly (0, 0); and such
glyphs can still contribute nonzero advance width to the width query of the
GlyphString built from the same text. -/
theorem c10_text_size_no_bbox :
    (∀ (scale : Scale) (font : Font) (text : List Char),
      (∀ g ∈ Font.layout font scale text, g.bb = none) →
      text_size scale font text = (0, 0)) ∧
    (∃ (scale : Scale) (font : Font) (text : List Char),
      (∀ g ∈ Font.layout font scale text, g.bb = none) ∧
      text_size scale font text = (0, 0) ∧
      2 < (GlyphString.new scale font text).width) := by
  constructor
  · intro scale font text h
    unfold text_size
    exact layout_glyphs_fst_of_nobb scale font text () _ h
  · refine ⟨sampleScale, spaceFont, [' ', ' '], by decide, ?_, ?_⟩
    · exact layout_glyphs_fst_of_nobb sampleScale spaceFont [' ', ' '] () _ (by decide)
    · norm_num [GlyphString.new, GlyphString.width, Font.layout, spaceFont, wsGlyph,
        f32ToU32, u32add, u32Mod] <;> decide

/-- Witness for C10 at a whitespace-only text. -/
theorem c10_text_size_no_bbox_witness :
    text_size sampleScale spaceFont [' '] = (0, 0) :=
  c10_text_size_no_bbox.1 sampleScale spaceFont [' '] (by decide)

/-- C6: each copying draw variant returns exactly the image obtained by applying
the corresponding in-place variant with the same arguments to a copy of the
input image. -/
theorem c6_copy_refines_mut (image : Image Pixel) (color c2 : Pixel) (x y : Int)
    (scale : Scale) (font : Font) (text : List Char) (s : GlyphString) (x2 y2 : Nat) :
    draw_text image color x y scale font text =
      draw_text_mut image.copyFrom color x y scale font text ∧
    s.draw image c2 x2 y2 = s.draw_mut image.copyFrom c2 x2 y2 :=
  ⟨rfl, rfl⟩

/-- C1: for both in-place drawing operations, a surface pixel is written only
when its absolute coordinate lies inside [0, width) times [0, height): every
pixel at or beyond the bounds keeps its value, and when every coverage pixel of
every glyph falls outside the surface the draw call is a no-op that modifies
zero pixels. -/
theorem c1_drawing_clips (img : Image Pixel) (color c2 : Pixel) (x y : Int)
    (scale : Scale) (font : Font) (text : List Char) (s : GlyphString) (x2 y2 : Nat) :
    (∀ u v : Nat, img.width ≤ u ∨ img.height ≤ v →
      (draw_text_mut img color x y scale font text).data u v = img.data u v ∧
      (s.draw_mut img c2 x2 y2).data u v = img.data u v) ∧
    ((∀ g ∈ Font.layout font scale text,
        Glyph.allOutside g x y (u32ToI32 img.width) (u32ToI32 img.height)) →
      draw_text_mut img color x y scale font text = img) ∧
    ((∀ g ∈ s.glyphs,
        Glyph.allOutside g (u32ToI32 x2) (u32ToI32 y2)
          (u32ToI32 img.width) (u32ToI32 img.height)) →
      s.draw_mut img c2 x2 y2 = img) := by
  refine ⟨?_, ?_, ?_⟩
  · intro u v huv
    have hb : u32ToI32 img.width ≤ (u : Int) ∨ u32ToI32 img.height ≤ (v : Int) := by
      rcases huv with h | h
      · exact Or.inl (le_trans (u32ToI32_le img.width) (by exact_mod_cast h))
      · exact Or.inr (le_trans (u32ToI32_le img.height) (by exact_mod_cast h))
    constructor
    · rw [draw_text_mut_eq]
      exact drawGlyphsAt_data_of_oob color x y (u32ToI32 img.width) (u32ToI32 img.height)
        (Font.layout font scale text) u v hb img
    · rw [GlyphString.draw_mut_eq]
      exact drawGlyphsAt_data_of_oob c2 (u32ToI32 x2) (u32ToI32 y2)
        (u32ToI32 img.width) (u32ToI32 img.height) s.glyphs u v hb img
  · intro hall
    rw [draw_text_mut_eq]
    exact drawGlyphsAt_of_allOutside color x y (u32ToI32 img.width) (u32ToI32 img.height)
      (Font.layout font scale text) hall img
  · intro hall
    rw [GlyphString.draw_mut_eq]
    exact drawGlyphsAt_of_allOutside c2 (u32ToI32 x2) (u32ToI32 y2)
      (u32ToI32 img.width) (u32ToI32 img.height) s.glyphs hall img

/-- Witness for C1: a far-away glyph drawn on the 20 by 10 sample surface leaves
an out-of-range coordinate unchanged and both draw calls are no-ops. -/
theorem c1_drawing_clips_witness :
    (draw_text_mut sampleImage [0] 0 0 sampleScale farFont ['a']).data 25 0 =
      sampleImage.data 25 0 ∧
    draw_text_mut sampleImage [0] 0 0 sampleScale farFont ['a'] = sampleImage ∧
    GlyphString.draw_mut (GlyphString.new sampleScale farFont ['a']) sampleImage [0] 3 4 =
      sampleImage := by
  obtain ⟨h1, h2, h3⟩ := c1_drawing_clips sampleImage [0] [0] 0 0 sampleScale farFont ['a']
    (GlyphString.new sampleScale farFont ['a']) 3 4
  exact ⟨(h1 25 0 (Or.inl (by decide))).1, h2 (by decide), h3 (by decide)⟩

/-- C5: the copying draw variants preserve every pixel outside the union of the
glyph coverage footprints: at any coordinate no glyph of the draw covers, the
returned image agrees with the input image, so the input image determines the
whole result outside the drawn region. -/
theorem c5_copy_frame (img : Image Pixel) (color c2 : Pixel) (x y : Int)
    (scale : Scale) (font : Font) (text : List Char) (s : GlyphString) (x2 y2 : Nat)
    (u v : Nat)
    (h1 : ∀ g ∈ Font.layout font scale text, ¬ Glyph.covers g x y u v)
    (h2 : ∀ g ∈ s.glyphs, ¬ Glyph.covers g (u32ToI32 x2) (u32ToI32 y2) u v) :
    (draw_text img color x y scale font text).data u v = img.data u v ∧
    (s.draw img c2 x2 y2).data u v = img.data u v := by
  constructor
  · show (draw_text_mut img.copyFrom color x y scale font text).data u v = img.data u v
    rw [draw_text_mut_eq]
    rw [drawGlyphsAt_data_of_not_covers color x y (u32ToI32 img.copyFrom.width)
      (u32ToI32 img.copyFrom.height) (Font.layout font scale text) u v h1 img.copyFrom]
    rfl
  · show (s.draw_mut img.copyFrom c2 x2 y2).data u v = img.data u v
    rw [GlyphString.draw_mut_eq]
    rw [drawGlyphsAt_data_of_not_covers c2 (u32ToI32 x2) (u32ToI32 y2)
      (u32ToI32 img.copyFrom.width) (u32ToI32 img.copyFrom.height) s.glyphs u v h2
      img.copyFrom]
    rfl

/-- Witness for C5: the inked glyph covers only surface pixel (3, 5) when drawn
at offset (2, 3), so the copying draws leave pixel (0, 0) unchanged. -/
theorem c5_copy_frame_witness :
    (draw_text sampleImage [9] 2 3 sampleScale inkFont ['a']).data 0 0 =
      sampleImage.data 0 0 ∧
    ((GlyphString.new sampleScale inkFont ['a']).draw sampleImage [9] 1 1).data 0 0 =
      sampleImage.data 0 0 :=
  c5_copy_frame sampleImage [9] [9] 2 3 sampleScale inkFont ['a']
    (GlyphString.new sampleScale inkFont ['a']) 1 1 0 0 (by decide) (by decide)

/-- C8: the width of a GlyphStrings block is the sum of the member widths (for
sums in the u32 range), its height is the maximum of the member heights with 0
for an empty list, and draw_positioned_mut draws the members left-to-right from
the resolved origin, advancing the x cursor by the width of each member after
drawing it with y shared: three runs of widths 10, 15 and 12 starting at x = 5
are placed at x offsets 5, 15 and 30. -/
theorem c8_multirun :
    (∀ gss : List GlyphString, (gss.map GlyphString.width).sum < u32Mod →
      GlyphStrings.width gss = (gss.map GlyphString.width).sum) ∧
    (∀ gss : List GlyphString,
      (∀ s ∈ gss, GlyphString.height s ≤ GlyphStrings.height gss) ∧
      (gss = [] → GlyphStrings.height gss = 0) ∧
      (gss ≠ [] → ∃ s ∈ gss, GlyphStrings.height gss = GlyphString.height s)) ∧
    (∀ (s1 s2 s3 : GlyphString) (k1 k2 k3 : Pixel) (img : Image Pixel)
        (pos : Position) (rect : IpRect) (y0 : Nat),
      s1.width = 10 → s2.width = 15 → s3.width = 12 →
      find_text_area_coordinates pos rect (GlyphStrings.width [s1, s2, s3])
        (GlyphStrings.height [s1, s2, s3]) = (5, y0) →
      GlyphStrings.draw_positioned_mut [s1, s2, s3] img [k1, k2, k3] pos rect =
        s3.draw_mut (s2.draw_mut (s1.draw_mut img k1 5 y0) k2 15 y0) k3 30 y0) := by
  refine ⟨?_, ?_, ?_⟩
  · intro gss hsum
    unfold GlyphStrings.width
    rw [foldl_u32add (gss.map GlyphString.width) 0 (by norm_num [u32Mod])]
    rw [Nat.zero_add, Nat.mod_eq_of_lt hsum]
  · intro gss
    cases hgss : gss with
    | nil =>
        refine ⟨?_, fun _ => rfl, fun hne => absurd rfl hne⟩
        intro s hs
        exact absurd hs (by simp)
    | cons a t =>
        obtain ⟨m, hm⟩ := max_isSome_of_ne_nil ((a :: t).map GlyphString.height) (by simp)
        have hh : GlyphStrings.height (a :: t) = m := by
          unfold GlyphStrings.height
          rw [hm]
          rfl
        refine ⟨?_, fun h => absurd h (by simp), fun _ => ?_⟩
        · intro s hs
          rw [hh]
          exact le_of_max_eq_some _ m hm (GlyphString.height s)
            (List.mem_map_of_mem GlyphString.height hs)
        · have hmem := mem_of_max_eq_some _ m hm
          obtain ⟨s, hs, hsm⟩ := List.mem_map.1 hmem
          exact ⟨s, hs, by rw [hh, hsm]⟩
  · intro s1 s2 s3 k1 k2 k3 img pos rect y0 hw1 hw2 hw3 hfind
    show GlyphStrings.drawLoop ([s1, s2, s3].zip [k1, k2, k3]) img
        (find_text_area_coordinates pos rect (GlyphStrings.width [s1, s2, s3])
          (GlyphStrings.height [s1, s2, s3])).1
        (find_text_area_coordinates pos rect (GlyphStrings.width [s1, s2, s3])
          (GlyphStrings.height [s1, s2, s3])).2 = _
    rw [hfind]
    show GlyphStrings.drawLoop [(s2, k2), (s3, k3)] (s1.draw_mut img k1 5 y0)
        (u32add 5 s1.width) y0 = _
    rw [hw1, (by decide : u32add 5 10 = 15)]
    show GlyphStrings.drawLoop [(s3, k3)] (s2.draw_mut (s1.draw_mut img k1 5 y0) k2 15 y0)
        (u32add 15 s2.width) y0 = _
    rw [hw2, (by decide : u32add 15 15 = 30)]
    show s3.draw_mut (s2.draw_mut (s1.draw_mut img k1 5 y0) k2 15 y0) k3 30 y0 = _
    rfl

/-- Witness for C8: three sample runs of widths 10, 15 and 12 anchored at the
origin (5, 7) of the rectangle (5, 7, 50, 40). -/
theorem c8_multirun_witness :
    GlyphStrings.width [run10, run15, run12] =
      ([run10, run15, run12].map GlyphString.width).sum ∧
    GlyphString.height run15 ≤ GlyphStrings.height [run10, run15, run12] ∧
    GlyphStrings.height ([] : List GlyphString) = 0 ∧
    GlyphStrings.draw_positioned_mut [run10, run15, run12] sampleImage [[1], [2], [3]]
        (Position.Any EdgePosition.left EdgePosition.top) ⟨5, 7, 50, 40⟩ =
      run12.draw_mut (run15.draw_mut (run10.draw_mut sampleImage [1] 5 7) [2] 15 7)
        [3] 30 7 := by
  obtain ⟨ha, hb, hc⟩ := c8_multirun
  refine ⟨?_, ?_, ?_, ?_⟩
  · exact ha [run10, run15, run12] (by
      norm_num [run10, run15, run12, GlyphString.width, f32ToU32, u32add, u32Mod] <;> decide)
  · exact (hb [run10, run15, run12]).1 run15
      (List.mem_cons_of_mem _ (List.mem_cons_self _ _))
  · exact (hb []).2.1 rfl
  · exact hc run10 run15 run12 [1] [2] [3] sampleImage
      (Position.Any EdgePosition.left EdgePosition.top) ⟨5, 7, 50, 40⟩ 7
      (by norm_num [run10, GlyphString.width, f32ToU32, u32add, u32Mod] <;> decide)
      (by norm_num [run15, GlyphString.width, f32ToU32, u32add, u32Mod] <;> decide)
      (by norm_num [run12, GlyphString.width, f32ToU32, u32add, u32Mod] <;> decide)
      (by norm_num [GlyphStrings.width, GlyphStrings.height, run10, run15, run12,
          GlyphString.width, GlyphString.height, find_text_area_coordinates,
          EdgePosition.left, EdgePosition.top, calculate_center, f32ToU32, u32add,
          u32sub, i32ToU32, u32Mod, List.max?] <;> decide)
